import Mathlib

/-!
Shallow embedding of `efficient_probit_regression/sampling.py`.

Conventions used throughout this development:
* numpy arrays of real numbers are modelled with exact rational arithmetic
  (`ℚ`), vectors as `List ℚ` or `Fin d → ℚ`, matrices as
  `Matrix (Fin d) (Fin d) ℚ`;
* a Python function that can raise `ValueError` returns
  `Except String α`, the string being the error message;
* calls into the numpy random generator and into the numpy linear-algebra
  primitives (`qr`, `pinv`, `solve`, `lstsq`, `orth`) are external
  capabilities: they enter the embedding as explicit oracle parameters,
  together with the documented contract of the primitive where a claim
  needs it (e.g. `rng.choice` validates its probability vector, a linear
  solver returns a solution of the linear system).
-/

open Matrix

/-- `true` exactly when an `Except` value is an error (a raised exception). -/
def isError {ε α : Type} : Except ε α → Bool
  | .error _ => true
  | .ok _ => false

/-- Embedding of `_check_sample` (sampling.py lines 12-22): validates the
row counts of `X` and `y` and the requested sample size, in the order the
source performs the checks. -/
def _check_sample (nX nY : ℕ) (sample_size : ℤ) : Except String Unit :=
  if nX ≠ nY then
    .error "Incompatible shapes of X and y"
  else if sample_size > (nX : ℤ) then
    .error "Sample size can't be greater than total number of samples!"
  else if sample_size ≤ 0 then
    .error "Sample size must be greater than zero!"
  else
    .ok ()

/-- The condition under which `_check_sample` rejects its input. -/
def badSample (nX nY : ℕ) (sample_size : ℤ) : Prop :=
  nX ≠ nY ∨ sample_size ≤ 0 ∨ sample_size > (nX : ℤ)

/-- Contract of `rng.choice(n, size=size, replace=False)` without a
probability vector: the generator returns `size` distinct indices below
`n` (it never fails when `0 < size ≤ n`). -/
def uniformDrawOk (n size : ℕ) (draw : List ℕ) : Bool :=
  decide (draw.length = size) && decide draw.Nodup &&
    draw.all (fun i => decide (i < n))

/-- Embedding of `uniform_sampling` (sampling.py lines 25-39).  The indices
returned by the random generator are the `draw` parameter; a draw outside
the generator's contract is mapped to a modelling-artifact error (the
generator never produces one). -/
def uniform_sampling (X : List (List ℚ)) (y : List ℚ) (sample_size : ℤ)
    (draw : List ℕ) : Except String (List (List ℚ) × List ℚ) :=
  match _check_sample X.length y.length sample_size with
  | .error e => .error e
  | .ok _ =>
      if uniformDrawOk X.length sample_size.toNat draw then
        .ok (draw.map (fun i => X.getD i []), draw.map (fun i => y.getD i 0))
      else
        .error "model: draw outside rng contract"

/-- Embedding of `_round_up` (sampling.py lines 183-195): raises when some
entry is negative, and otherwise maps every positive entry `v` to
`2 ^ ⌈log₂ v⌉` and keeps the remaining entries (the zeros) unchanged. -/
def _round_up (x : List ℚ) : Except String (List ℚ) :=
  if x.any (fun v => decide (v < 0)) then
    .error "All elements of x must be greater than zero!"
  else
    .ok (x.map (fun v => if 0 < v then (2 : ℚ) ^ Int.clog 2 v else v))

/-- The augmentation step of `leverage_score_sampling` (line 285):
`scores + 1/n` when `augmented` is set, the scores unchanged otherwise. -/
def augScores (n : ℕ) (scores : List ℚ) (augmented : Bool) : List ℚ :=
  if augmented then scores.map (fun v => v + 1 / (n : ℚ)) else scores

/-- The leverage scores in effect after the optional augmentation and
round-up transformations of `leverage_score_sampling` (lines 284-288). -/
def effScores (n : ℕ) (scores : List ℚ) (augmented round_up : Bool) :
    Except String (List ℚ) :=
  if round_up then _round_up (augScores n scores augmented)
  else .ok (augScores n scores augmented)

/-- Validation performed by `rng.choice(n, size=size, replace=False, p=p)`
(modelled from numpy's documented behaviour): the call fails when `p` has
the wrong length, has a negative entry, does not sum to 1, or has fewer
than `size` positive entries. -/
def choiceBad (n : ℕ) (p : List ℚ) (size : ℕ) : Bool :=
  decide (p.length ≠ n) || p.any (fun v => decide (v < 0)) ||
    decide (p.sum ≠ 1) || decide (p.countP (fun v => decide (0 < v)) < size)

/-- Contract of a successful `rng.choice(n, size=size, replace=False, p=p)`
draw: `size` distinct indices below `n`, each with positive probability. -/
def weightedDrawOk (n : ℕ) (p : List ℚ) (size : ℕ) (draw : List ℕ) : Bool :=
  decide (draw.length = size) && decide draw.Nodup &&
    draw.all (fun i => decide (i < n) && decide (0 < p.getD i 0))

/-- Embedding of `leverage_score_sampling` (sampling.py lines 243-302).
The `leverage_scores` parameter carries the scores the source would use at
line 284: the precomputed array when one is passed, otherwise the output of
the (external, randomized) batch or online leverage-score computation.
The indices returned by `rng.choice` are the `draw` parameter. -/
def leverage_score_sampling (X : List (List ℚ)) (y : List ℚ)
    (sample_size : ℤ) (augmented round_up : Bool) (leverage_scores : List ℚ)
    (draw : List ℕ) : Except String (List (List ℚ) × List ℚ × List ℚ) :=
  match _check_sample X.length y.length sample_size with
  | .error e => .error e
  | .ok _ =>
      match effScores X.length leverage_scores augmented round_up with
      | .error e => .error e
      | .ok scores =>
          let total := scores.sum
          let p := scores.map (fun v => v / total)
          let w := p.map (fun v => 1 / (v * (sample_size : ℚ)))
          if choiceBad X.length p sample_size.toNat then
            .error "probabilities are not valid"
          else if weightedDrawOk X.length p sample_size.toNat draw then
            .ok (draw.map (fun i => X.getD i []),
                 draw.map (fun i => y.getD i 0),
                 draw.map (fun i => w.getD i 0))
          else
            .error "model: draw outside rng contract"

/-- The external numerical primitives consumed by
`compute_leverage_scores_online`:
* `branch i` is the value of the `_check_norm_change` test at step `i`
  (a floating-point tolerance test, abstracted as an oracle);
* `pinv i` is `np.linalg.pinv(M)` of the Gram matrix at step `i`;
* `solveRes i` is the result of `np.linalg.solve(ATA, row i)` at step `i`
  (`none` models a raised `LinAlgError`);
* `lstsqRes i` is the least-squares solution `np.linalg.lstsq(ATA, row i)`. -/
structure OnlineOracles (d : ℕ) where
  branch : ℕ → Bool
  pinv : ℕ → Matrix (Fin d) (Fin d) ℚ
  solveRes : ℕ → Option (Fin d → ℚ)
  lstsqRes : ℕ → Fin d → ℚ

/-- The running Gram matrix `Σ_{j ≤ i} xⱼ xⱼᵀ` after row `i` has been
added, as accumulated by both online leverage-score variants. -/
def ATA_seq (d : ℕ) (rows : ℕ → Fin d → ℚ) (i : ℕ) :
    Matrix (Fin d) (Fin d) ℚ :=
  ∑ j ∈ Finset.range (i + 1), Matrix.vecMulVec (rows j) (rows j)

/-- Embedding of `_fast_inv_update` (sampling.py lines 105-111), the
Sherman-Morrison style rank-one update of the inverse Gram matrix. -/
def fastInvUpdate {d : ℕ} (Minv : Matrix (Fin d) (Fin d) ℚ)
    (x : Fin d → ℚ) : Matrix (Fin d) (Fin d) ℚ :=
  Minv - (1 / (1 + x ⬝ᵥ Minv.mulVec x)) • (Minv * Matrix.vecMulVec x x * Minv)

/-- The value of `M_inv` held by `_compute_leverage_scores_online_pinv`
after processing row `i`: the fast rank-one update when the cached-basis
test succeeds, a fresh pseudo-inverse otherwise.  `M_inv` starts at the
zero matrix (line 119). -/
def minvSeq {d : ℕ} (rows : ℕ → Fin d → ℚ) (O : OnlineOracles d) :
    ℕ → Matrix (Fin d) (Fin d) ℚ
  | 0 =>
      if O.branch 0 then fastInvUpdate 0 (rows 0) else O.pinv 0
  | i + 1 =>
      if O.branch (i + 1) then fastInvUpdate (minvSeq rows O i) (rows (i + 1))
      else O.pinv (i + 1)

/-- Embedding of `_compute_leverage_scores_online_pinv` (sampling.py lines
114-144): the raw quadratic form of each row with the current inverse Gram
matrix, clamped above by 1 (line 140) and below by 0 (line 141). -/
def _compute_leverage_scores_online_pinv (d n : ℕ) (rows : ℕ → Fin d → ℚ)
    (O : OnlineOracles d) : List ℚ :=
  (List.range n).map (fun i =>
    max (min (rows i ⬝ᵥ (minvSeq rows O i).mulVec (rows i)) 1) 0)

/-- The raw leverage score of row `i` in
`_compute_leverage_scores_online_solve` (sampling.py lines 158-167): the
quadratic form with the solution of `ATA z = row`, recomputed with the
least-squares solver when `np.linalg.solve` raises or returns a negative
value. -/
def solveScoreRaw {d : ℕ} (rows : ℕ → Fin d → ℚ) (O : OnlineOracles d)
    (i : ℕ) : ℚ :=
  match O.solveRes i with
  | some s => if rows i ⬝ᵥ s < 0 then rows i ⬝ᵥ O.lstsqRes i else rows i ⬝ᵥ s
  | none => rows i ⬝ᵥ O.lstsqRes i

/-- Embedding of `_compute_leverage_scores_online_solve` (sampling.py lines
147-171): the raw score of each row clamped above by 1 (line 168); this
variant has no lower clamp. -/
def _compute_leverage_scores_online_solve (d n : ℕ) (rows : ℕ → Fin d → ℚ)
    (O : OnlineOracles d) : List ℚ :=
  (List.range n).map (fun i => min (solveScoreRaw rows O i) 1)

/-- Embedding of `compute_leverage_scores_online` (sampling.py lines
174-180): method dispatch between the two online variants. -/
def compute_leverage_scores_online (d n : ℕ) (rows : ℕ → Fin d → ℚ)
    (O : OnlineOracles d) (method : String) : Except String (List ℚ) :=
  if method = "pinv" then
    .ok (_compute_leverage_scores_online_pinv d n rows O)
  else if method = "solve" then
    .ok (_compute_leverage_scores_online_solve d n rows O)
  else
    .error "Method must be either pinv or solve!"

/-- A numpy array as far as `compute_leverage_scores` inspects it: its
shape (the data itself only flows into the external QR factorization). -/
structure NpArray where
  shape : List ℕ
  data : List ℚ

/-- Embedding of `compute_leverage_scores` (sampling.py lines 81-95).
`Qrows` is the orthogonal factor produced by the external factorization
(`np.linalg.qr` when `fast_approx` is unset, the randomized `fast_QR`
otherwise); each leverage score is the `p`-norm of the corresponding row
of `Q`, raised to the power `p`. -/
def compute_leverage_scores (X : NpArray) (p : ℕ) (fast_approx : Bool)
    (Qrows : List (List ℚ)) : Except String (List ℚ) :=
  if X.shape.length ≠ 2 then
    .error "X must be 2D!"
  else
    .ok (Qrows.map (fun q => (q.map (fun v => |v| ^ p)).sum))

/-- State of the `ReservoirSampler` class (sampling.py lines 348-407).
The preallocated `np.empty` buffers are modelled as lists of length
`sample_size` holding an arbitrary initial fill; nothing proved below
depends on that fill. -/
structure ReservoirSampler (α : Type) where
  sample_size : ℕ
  sampleX : List α
  sampleY : List ℚ
  rowCounter : ℕ
  weightSum : ℚ
  lastRecordSampled : Bool

/-- Embedding of `ReservoirSampler.__init__` (lines 360-367); `x0` is the
arbitrary content of the freshly allocated buffers. -/
def ReservoirSampler.init (α : Type) (sample_size : ℕ) (x0 : α) :
    ReservoirSampler α :=
  { sample_size := sample_size
    sampleX := List.replicate sample_size x0
    sampleY := List.replicate sample_size 0
    rowCounter := 0
    weightSum := 0
    lastRecordSampled := false }

/-- Embedding of `ReservoirSampler.get_sample` (lines 369-378): the filled
prefix while the reservoir is not yet full, the whole buffers afterwards. -/
def ReservoirSampler.get_sample {α : Type} (r : ReservoirSampler α) :
    List α × List ℚ :=
  if r.rowCounter < r.sample_size then
    (r.sampleX.take r.rowCounter, r.sampleY.take r.rowCounter)
  else
    (r.sampleX, r.sampleY)

/-- Embedding of `ReservoirSampler.insert_record` (lines 380-404).  The
two random draws of the replacement branch enter as parameters: `u` is the
value of `_rng.random()` and `slot` the slot index `_rng.choice` returned. -/
def ReservoirSampler.insert_record {α : Type} (r : ReservoirSampler α)
    (row : α) (label : ℚ) (weight : ℚ) (u : ℚ) (slot : ℕ) :
    ReservoirSampler α :=
  let r := { r with weightSum := r.weightSum + weight }
  if r.rowCounter < r.sample_size then
    { r with
      sampleX := r.sampleX.set r.rowCounter row
      sampleY := r.sampleY.set r.rowCounter label
      rowCounter := r.rowCounter + 1
      lastRecordSampled := true }
  else
    if u < r.sample_size * weight / r.weightSum then
      { r with
        sampleX := r.sampleX.set slot row
        sampleY := r.sampleY.set slot label
        rowCounter := r.rowCounter + 1
        lastRecordSampled := true }
    else
      { r with lastRecordSampled := false }

/-- Embedding of `ReservoirSampler.was_last_record_sampled` (line 406). -/
def ReservoirSampler.was_last_record_sampled {α : Type}
    (r : ReservoirSampler α) : Bool :=
  r.lastRecordSampled

/-- One record of a stream fed to the reservoir: the data row, its label
and weight, together with the two random draws consumed by the insertion. -/
structure StreamRecord (α : Type) where
  row : α
  label : ℚ
  weight : ℚ
  u : ℚ
  slot : ℕ

/-- Feeding a stream of records into a reservoir, one `insert_record` call
per record. -/
def runReservoir {α : Type} (r : ReservoirSampler α) :
    List (StreamRecord α) → ReservoirSampler α
  | [] => r
  | q :: rest =>
      runReservoir (r.insert_record q.row q.label q.weight q.u q.slot) rest

/-- State threaded through the loop of
`online_ridge_leverage_score_sampling`: the ridge-regularized Gram matrix,
the reservoir, and the trace of `was_last_record_sampled()` values
observed after each insertion. -/
structure RidgeState (d : ℕ) where
  ATA : Matrix (Fin d) (Fin d) ℚ
  sampler : ReservoirSampler (Fin d → ℚ)
  flags : List Bool

/-- The `cur_weight` computation of the loop (sampling.py lines 333-337):
the ridge leverage score of the row, clamped above by 1, plus the optional
augmentation constant. -/
def ridgeWeight {d : ℕ}
    (solve : Matrix (Fin d) (Fin d) ℚ → (Fin d → ℚ) → (Fin d → ℚ))
    (augmentation_constant : Option ℚ) (st : RidgeState d)
    (row : Fin d → ℚ) : ℚ :=
  min (row ⬝ᵥ solve st.ATA row) 1 +
    (match augmentation_constant with | some c => c | none => 0)

/-- One iteration of the loop of `online_ridge_leverage_score_sampling`
(sampling.py lines 329-342): compute the ridge leverage weight of the
current row (`solve` abstracts `np.linalg.solve` inside
`_fast_leverage_score`), insert the record, and add the row's outer
product to the Gram matrix exactly when the record was sampled. -/
def ridgeStep {d : ℕ}
    (solve : Matrix (Fin d) (Fin d) ℚ → (Fin d → ℚ) → (Fin d → ℚ))
    (augmentation_constant : Option ℚ) (u : ℚ) (slot : ℕ)
    (st : RidgeState d) (row : Fin d → ℚ) (label : ℚ) : RidgeState d :=
  let sampler := st.sampler.insert_record row label
    (ridgeWeight solve augmentation_constant st row) u slot
  ⟨if sampler.was_last_record_sampled then
      st.ATA + Matrix.vecMulVec row row
    else st.ATA,
   sampler, st.flags ++ [sampler.was_last_record_sampled]⟩

/-- The loop of `online_ridge_leverage_score_sampling` over the remaining
records, with `i` the stream position used to index the random draws. -/
def ridgeRun {d : ℕ}
    (solve : Matrix (Fin d) (Fin d) ℚ → (Fin d → ℚ) → (Fin d → ℚ))
    (augmentation_constant : Option ℚ) (us : ℕ → ℚ) (slots : ℕ → ℕ) :
    List ((Fin d → ℚ) × ℚ) → ℕ → RidgeState d → RidgeState d
  | [], _, st => st
  | (x, yl) :: rest, i, st =>
      ridgeRun solve augmentation_constant us slots rest (i + 1)
        (ridgeStep solve augmentation_constant (us i) (slots i) st x yl)

/-- Embedding of `online_ridge_leverage_score_sampling` (sampling.py lines
312-345).  Besides the returned triple `(X_sample, y_sample, weights)` the
embedding exposes the final internal state, so that theorems can speak
about the Gram matrix; the source keeps it local. -/
def online_ridge_leverage_score_sampling (d : ℕ) (X : List (Fin d → ℚ))
    (y : List ℚ) (sample_size : ℕ) (augmentation_constant : Option ℚ)
    (lambda_ridge : ℚ)
    (solve : Matrix (Fin d) (Fin d) ℚ → (Fin d → ℚ) → (Fin d → ℚ))
    (us : ℕ → ℚ) (slots : ℕ → ℕ) :
    (List (Fin d → ℚ) × List ℚ × List ℚ) × RidgeState d :=
  let st0 : RidgeState d :=
    ⟨lambda_ridge • (1 : Matrix (Fin d) (Fin d) ℚ),
     ReservoirSampler.init (Fin d → ℚ) sample_size (fun _ => 0), []⟩
  let st := ridgeRun solve augmentation_constant us slots (X.zip y) 0 st0
  let sample := st.sampler.get_sample
  ((sample.1, sample.2, List.replicate sample.2.length 1), st)

/-- Per-chain state of `gibbs_sampler_probit` after a number of
iterations: the current coefficient vector and the list of coefficient
draws collected so far.  `draw i β` abstracts one full Gibbs iteration
(truncated-normal latent draw followed by the Gaussian full-conditional
draw of the coefficients) from current coefficients `β`, with all the
randomness of iteration `i` inside the oracle. -/
def chainState (d : ℕ) (draw : ℕ → (Fin d → ℚ) → Fin d → ℚ) :
    ℕ → (Fin d → ℚ) × List (Fin d → ℚ)
  | 0 => (fun _ => 0, [])
  | i + 1 =>
      let st := chainState d draw i
      let beta := draw i st.1
      (beta, st.2 ++ [beta])

/-- Embedding of `simulate_chain` (sampling.py lines 513-537): iterate
`num_samples + burn_in` times from the zero start vector, collect every
coefficient draw, and discard the first `burn_in` of them. -/
def simulate_chain (d : ℕ) (draw : ℕ → (Fin d → ℚ) → Fin d → ℚ)
    (num_samples burn_in : ℕ) : List (Fin d → ℚ) :=
  (chainState d draw (num_samples + burn_in)).2.drop burn_in

/-- Embedding of `gibbs_sampler_probit` (sampling.py lines 483-547):
`num_chains` independent chains (`draws c` is the randomness of chain
`c`), whose retained samples are concatenated; a single chain is run
directly, as in the source. -/
def gibbs_sampler_probit (d : ℕ)
    (draws : ℕ → ℕ → (Fin d → ℚ) → Fin d → ℚ)
    (num_samples burn_in num_chains : ℕ) : List (Fin d → ℚ) :=
  if num_chains = 1 then
    simulate_chain d (draws 0) num_samples burn_in
  else
    ((List.range num_chains).map
      (fun c => simulate_chain d (draws c) num_samples burn_in)).flatten

/-- The structural invariant maintained by the reservoir after `k`
insertions: the buffers keep their capacity-sized length, the row counter
never exceeds the number of insertions, and it equals that number until
the reservoir has been filled. -/
def ResInv {α : Type} (r : ReservoirSampler α) (k : ℕ) : Prop :=
  r.sampleX.length = r.sample_size ∧ r.sampleY.length = r.sample_size ∧
  r.rowCounter ≤ k ∧ (r.rowCounter = k ∨ r.sample_size ≤ r.rowCounter)

/-- A concrete oracle bundle (trivial numerics) used to exhibit that the
solver contracts of the online leverage theorems are satisfiable. -/
def zeroOracles : OnlineOracles 1 :=
  { branch := fun _ => false
    pinv := fun _ => 0
    solveRes := fun _ => some (fun _ => 0)
    lstsqRes := fun _ _ => 0 }

/-! ## Helper lemmas -/

theorem check_sample_ok_iff (nX nY : ℕ) (s : ℤ) :
    _check_sample nX nY s = .ok () ↔ (nX = nY ∧ 0 < s ∧ s ≤ (nX : ℤ)) := by
  unfold _check_sample
  split_ifs with h1 h2 h3 <;> simp <;> omega

theorem check_sample_error_of_bad (nX nY : ℕ) (s : ℤ)
    (h : badSample nX nY s) : ∃ e, _check_sample nX nY s = .error e := by
  unfold badSample at h
  unfold _check_sample
  split_ifs with h1 h2 h3
  · exact ⟨_, rfl⟩
  · exact ⟨_, rfl⟩
  · exact ⟨_, rfl⟩
  · omega

theorem getD_map_lt {γ δ : Type} (f : γ → δ) (l : List γ) (i : ℕ) (d : γ)
    (d' : δ) (h : i < l.length) : (l.map f).getD i d' = f (l.getD i d) := by
  rw [List.getD_eq_getElem _ _ (by simpa using h), List.getD_eq_getElem _ _ h,
    List.getElem_map]

/-! ## Claim theorems -/

/-- C9: for every input `X` that is not two-dimensional,
`compute_leverage_scores` fails with the shape error before any
factorization is attempted (the result is the same error for every value
the factorization oracle could produce); for two-dimensional `X` it
returns the scores and never raises this error. -/
theorem compute_leverage_scores_shape_spec (X : NpArray) :
    (X.shape.length ≠ 2 →
      ∀ (p : ℕ) (fast_approx : Bool) (Qrows : List (List ℚ)),
        compute_leverage_scores X p fast_approx Qrows
          = .error "X must be 2D!") ∧
    (X.shape.length = 2 →
      ∀ (p : ℕ) (fast_approx : Bool) (Qrows : List (List ℚ)),
        compute_leverage_scores X p fast_approx Qrows
          = .ok (Qrows.map (fun q => (q.map (fun v => |v| ^ p)).sum))) := by
  constructor
  · intro h p fa Q
    simp [compute_leverage_scores, h]
  · intro h p fa Q
    simp [compute_leverage_scores, h]

/-- Witness for C9: a one-dimensional array is rejected whatever the
factorization would return, and a 2×2 array is accepted. -/
theorem compute_leverage_scores_shape_spec_witness :
    compute_leverage_scores ⟨[3], [1, 2, 3]⟩ 2 false [[1]]
      = .error "X must be 2D!" ∧
    compute_leverage_scores ⟨[2, 2], [1, 0, 0, 1]⟩ 2 false [[1, 0], [0, 1]]
      = .ok [1, 1] := by
  constructor
  · exact (compute_leverage_scores_shape_spec ⟨[3], [1, 2, 3]⟩).1 (by decide)
      2 false [[1]]
  · have h := (compute_leverage_scores_shape_spec ⟨[2, 2], [1, 0, 0, 1]⟩).2
      (by decide) 2 false [[1, 0], [0, 1]]
    rw [h]
    norm_num

/-- C10: `compute_leverage_scores_online` with a method other than
`"pinv"` and `"solve"` raises a `ValueError` whose value does not depend
on the data (the result is the same constant error for every input);
`"pinv"` dispatches to the pinv variant and `"solve"` to the solve
variant. -/
theorem compute_leverage_scores_online_dispatch (d n : ℕ)
    (rows : ℕ → Fin d → ℚ) (O : OnlineOracles d) (method : String)
    (h1 : method ≠ "pinv") (h2 : method ≠ "solve") :
    compute_leverage_scores_online d n rows O method
      = .error "Method must be either pinv or solve!" ∧
    compute_leverage_scores_online d n rows O "pinv"
      = .ok (_compute_leverage_scores_online_pinv d n rows O) ∧
    compute_leverage_scores_online d n rows O "solve"
      = .ok (_compute_leverage_scores_online_solve d n rows O) := by
  refine ⟨?_, ?_, ?_⟩ <;> simp [compute_leverage_scores_online, h1, h2]

/-- Witness for C10 at the concrete method string `"qr"`. -/
theorem compute_leverage_scores_online_dispatch_witness :
    compute_leverage_scores_online 1 1 (fun _ _ => 0) zeroOracles "qr"
      = .error "Method must be either pinv or solve!" ∧
    compute_leverage_scores_online 1 1 (fun _ _ => 0) zeroOracles "pinv"
      = .ok (_compute_leverage_scores_online_pinv 1 1 (fun _ _ => 0)
          zeroOracles) ∧
    compute_leverage_scores_online 1 1 (fun _ _ => 0) zeroOracles "solve"
      = .ok (_compute_leverage_scores_online_solve 1 1 (fun _ _ => 0)
          zeroOracles) :=
  compute_leverage_scores_online_dispatch 1 1 (fun _ _ => 0) zeroOracles "qr"
    (by decide) (by decide)

/-- C7: `_round_up` raises on every input containing a negative entry; on
a nonnegative input it succeeds and maps each zero entry to zero and each
positive entry to the smallest power of two greater than or equal to it.
(The source works on a copy, `results = x.copy()`; the embedding is pure,
so the input is unchanged by construction.) -/
theorem round_up_spec (x : List ℚ) :
    ((∃ v ∈ x, v < 0) → isError (_round_up x) = true) ∧
    ((∀ v ∈ x, 0 ≤ v) →
      ∃ ys, _round_up x = .ok ys ∧ ys.length = x.length ∧
        ∀ i, i < x.length →
          (x.getD i 0 = 0 → ys.getD i 0 = 0) ∧
          (0 < x.getD i 0 →
            (∃ z : ℤ, ys.getD i 0 = (2 : ℚ) ^ z) ∧
            x.getD i 0 ≤ ys.getD i 0 ∧
            ∀ z : ℤ, x.getD i 0 ≤ (2 : ℚ) ^ z →
              ys.getD i 0 ≤ (2 : ℚ) ^ z)) := by
  have h2 : ((2 : ℕ) : ℚ) = (2 : ℚ) := by norm_num
  constructor
  · rintro ⟨v, hv, hneg⟩
    have hany : x.any (fun v => decide (v < 0)) = true :=
      List.any_eq_true.mpr ⟨v, hv, by simpa using hneg⟩
    simp [_round_up, hany, isError]
  · intro hpos
    have hany : x.any (fun v => decide (v < 0)) = false := by
      rw [List.any_eq_false]
      intro v hv
      simpa using not_lt.mpr (hpos v hv)
    refine ⟨x.map (fun v => if 0 < v then (2 : ℚ) ^ Int.clog 2 v else v),
      by simp [_round_up, hany], by simp, ?_⟩
    intro i hi
    rw [getD_map_lt _ x i 0 0 hi]
    constructor
    · intro h0
      rw [h0]
      simp
    · intro hgt
      rw [if_pos hgt]
      refine ⟨⟨Int.clog 2 (x.getD i 0), rfl⟩, ?_, ?_⟩
      · have := Int.self_le_zpow_clog (R := ℚ) (b := 2) (by norm_num)
          (x.getD i 0)
        rwa [h2] at this
      · intro z hz
        have hclog : Int.clog 2 (x.getD i 0) ≤ z := by
          rw [← Int.le_zpow_iff_clog_le (R := ℚ) (by norm_num) hgt, h2]
          exact hz
        exact zpow_le_zpow_right₀ one_le_two hclog

/-- Witness for C7: `_round_up` rejects `[-1]` and, on `[0, 3]`, maps 0 to
0 and 3 to 4 (the smallest power of two above 3). -/
theorem round_up_spec_witness :
    isError (_round_up [(-1 : ℚ)]) = true ∧
    (∃ ys, _round_up [(0 : ℚ), 3] = .ok ys ∧
      ys.length = ([(0 : ℚ), 3] : List ℚ).length ∧
      ∀ i, i < ([(0 : ℚ), 3] : List ℚ).length →
        (([(0 : ℚ), 3] : List ℚ).getD i 0 = 0 → ys.getD i 0 = 0) ∧
        (0 < ([(0 : ℚ), 3] : List ℚ).getD i 0 →
          (∃ z : ℤ, ys.getD i 0 = (2 : ℚ) ^ z) ∧
          ([(0 : ℚ), 3] : List ℚ).getD i 0 ≤ ys.getD i 0 ∧
          ∀ z : ℤ, ([(0 : ℚ), 3] : List ℚ).getD i 0 ≤ (2 : ℚ) ^ z →
            ys.getD i 0 ≤ (2 : ℚ) ^ z)) := by
  constructor
  · exact (round_up_spec [(-1 : ℚ)]).1 ⟨-1, by simp, by norm_num⟩
  · exact (round_up_spec [(0 : ℚ), 3]).2 (by decide)

theorem chainState_snd_length (d : ℕ) (draw : ℕ → (Fin d → ℚ) → Fin d → ℚ) :
    ∀ i, (chainState d draw i).2.length = i
  | 0 => rfl
  | i + 1 => by
      simp [chainState, chainState_snd_length d draw i]

/-- C2: `gibbs_sampler_probit` with `num_chains = k ≥ 1`, `num_samples = m`
and `burn_in = b` returns exactly `k·m` coefficient vectors (each of
dimension `d` by the type of `chainState`): every chain iterates exactly
`m + b` times, the retained part of each chain is the trace of its
coefficient draws with exactly the first `b` dropped (in iteration
order), and the retained parts of the `k` chains are concatenated. -/
theorem gibbs_sampler_probit_shape (d : ℕ)
    (draws : ℕ → ℕ → (Fin d → ℚ) → Fin d → ℚ)
    (num_samples burn_in num_chains : ℕ) (hk : 1 ≤ num_chains) :
    (gibbs_sampler_probit d draws num_samples burn_in num_chains).length
      = num_chains * num_samples ∧
    (∀ c, (chainState d (draws c) (num_samples + burn_in)).2.length
      = num_samples + burn_in) ∧
    gibbs_sampler_probit d draws num_samples burn_in num_chains
      = ((List.range num_chains).map
          (fun c => (chainState d (draws c)
            (num_samples + burn_in)).2.drop burn_in)).flatten := by
  have hflat : gibbs_sampler_probit d draws num_samples burn_in num_chains
      = ((List.range num_chains).map
          (fun c => (chainState d (draws c)
            (num_samples + burn_in)).2.drop burn_in)).flatten := by
    unfold gibbs_sampler_probit
    split_ifs with h1
    · subst h1
      rw [show List.range 1 = [0] from rfl]
      simp [simulate_chain]
    · rfl
  refine ⟨?_, fun c => chainState_snd_length d (draws c) _, hflat⟩
  rw [hflat, List.length_flatten, List.map_map]
  have hm : ((List.range num_chains).map
      (List.length ∘ fun c => (chainState d (draws c)
        (num_samples + burn_in)).2.drop burn_in))
      = (List.range num_chains).map (fun _ => num_samples) := by
    apply List.map_congr_left
    intro c _
    simp [chainState_snd_length d (draws c)]
  rw [hm, List.map_const', List.sum_replicate, List.length_range,
    smul_eq_mul]

/-- Witness for C2 at `d = 1`, two chains, one retained sample, one
burn-in iteration. -/
theorem gibbs_sampler_probit_shape_witness :
    (gibbs_sampler_probit 1 (fun _ _ _ _ => 0) 1 1 2).length = 2 * 1 :=
  (gibbs_sampler_probit_shape 1 (fun _ _ _ _ => 0) 1 1 2 (by decide)).1

theorem take_set_succ {α : Type} :
    ∀ (l : List α) (k : ℕ) (v : α), k < l.length →
      (l.set k v).take (k + 1) = l.take k ++ [v]
  | [], k, v, h => by simp at h
  | a :: l, 0, v, _ => by simp
  | a :: l, k + 1, v, h => by
      have ih := take_set_succ l k v (by simpa using h)
      simp only [List.set_cons_succ, List.take_succ_cons, ih, List.cons_append]

theorem insert_record_inv {α : Type} {r : ReservoirSampler α} {k : ℕ}
    (h : ResInv r k) (row : α) (label weight u : ℚ) (slot : ℕ) :
    ResInv (r.insert_record row label weight u slot) (k + 1) := by
  obtain ⟨hx, hy, hle, hor⟩ := h
  unfold ReservoirSampler.insert_record
  dsimp only
  split_ifs with h1 h2
  · exact ⟨by simpa using hx, by simpa using hy,
      show r.rowCounter + 1 ≤ k + 1 by omega,
      show r.rowCounter + 1 = k + 1 ∨ r.sample_size ≤ r.rowCounter + 1 by
        omega⟩
  · exact ⟨by simpa using hx, by simpa using hy,
      show r.rowCounter + 1 ≤ k + 1 by omega,
      show r.rowCounter + 1 = k + 1 ∨ r.sample_size ≤ r.rowCounter + 1 by
        omega⟩
  · have h1' : ¬ r.rowCounter < r.sample_size := h1
    exact ⟨hx, hy, show r.rowCounter ≤ k + 1 by omega,
      show r.rowCounter = k + 1 ∨ r.sample_size ≤ r.rowCounter by omega⟩

theorem runReservoir_inv {α : Type} :
    ∀ (recs : List (StreamRecord α)) (r : ReservoirSampler α) (k : ℕ),
      ResInv r k → ResInv (runReservoir r recs) (k + recs.length)
  | [], r, k, h => by simpa [runReservoir] using h
  | q :: rest, r, k, h => by
      have step := insert_record_inv h q.row q.label q.weight q.u q.slot
      have ih := runReservoir_inv rest
        (r.insert_record q.row q.label q.weight q.u q.slot) (k + 1) step
      have hlen : k + (q :: rest).length = k + 1 + rest.length := by
        simp [List.length_cons]
        omega
      rw [hlen]
      simpa [runReservoir] using ih

theorem insert_record_sample_size {α : Type} (r : ReservoirSampler α)
    (row : α) (label weight u : ℚ) (slot : ℕ) :
    (r.insert_record row label weight u slot).sample_size = r.sample_size := by
  unfold ReservoirSampler.insert_record
  dsimp only
  split_ifs <;> rfl

theorem runReservoir_sample_size {α : Type} :
    ∀ (recs : List (StreamRecord α)) (r : ReservoirSampler α),
      (runReservoir r recs).sample_size = r.sample_size
  | [], r => rfl
  | q :: rest, r => by
      rw [runReservoir, runReservoir_sample_size rest,
        insert_record_sample_size]

theorem runReservoir_fill {α : Type} :
    ∀ (recs : List (StreamRecord α)) (r : ReservoirSampler α),
      r.sampleX.length = r.sample_size → r.sampleY.length = r.sample_size →
      r.rowCounter + recs.length ≤ r.sample_size →
      (runReservoir r recs).rowCounter = r.rowCounter + recs.length ∧
      (runReservoir r recs).sampleX.take (r.rowCounter + recs.length)
        = r.sampleX.take r.rowCounter ++ recs.map (fun q => q.row) ∧
      (runReservoir r recs).sampleY.take (r.rowCounter + recs.length)
        = r.sampleY.take r.rowCounter ++ recs.map (fun q => q.label)
  | [], r, hx, hy, hle => by simp [runReservoir]
  | q :: rest, r, hx, hy, hle => by
      have hle2 : r.rowCounter + (rest.length + 1) ≤ r.sample_size := by
        simpa [List.length_cons] using hle
      have hlt : r.rowCounter < r.sample_size := by omega
      set r' := r.insert_record q.row q.label q.weight q.u q.slot with hr'
      have hfill : r' = { r with
          weightSum := r.weightSum + q.weight
          sampleX := r.sampleX.set r.rowCounter q.row
          sampleY := r.sampleY.set r.rowCounter q.label
          rowCounter := r.rowCounter + 1
          lastRecordSampled := true } := by
        rw [hr']
        unfold ReservoirSampler.insert_record
        dsimp only
        split_ifs
        rfl
      have hx' : r'.sampleX.length = r'.sample_size := by
        rw [hfill]
        simpa using hx
      have hy' : r'.sampleY.length = r'.sample_size := by
        rw [hfill]
        simpa using hy
      have hle' : r'.rowCounter + rest.length ≤ r'.sample_size := by
        rw [hfill]
        show r.rowCounter + 1 + rest.length ≤ r.sample_size
        omega
      obtain ⟨ihc, ihx, ihy⟩ := runReservoir_fill rest r' hx' hy' hle'
      have hrun : runReservoir r (q :: rest) = runReservoir r' rest := rfl
      have hcnt : r'.rowCounter = r.rowCounter + 1 := by rw [hfill]
      have htx : r'.sampleX.take r'.rowCounter
          = r.sampleX.take r.rowCounter ++ [q.row] := by
        rw [hfill]
        exact take_set_succ r.sampleX r.rowCounter q.row (by omega)
      have hty : r'.sampleY.take r'.rowCounter
          = r.sampleY.take r.rowCounter ++ [q.label] := by
        rw [hfill]
        exact take_set_succ r.sampleY r.rowCounter q.label (by omega)
      have hnum : r.rowCounter + (q :: rest).length
          = r'.rowCounter + rest.length := by
        rw [hcnt]
        simp only [List.length_cons]
        omega
      refine ⟨?_, ?_, ?_⟩
      · rw [hrun, ihc, hcnt]
        simp only [List.length_cons]
        omega
      · rw [hrun, hnum, ihx, htx, List.map_cons]
        simp
      · rw [hrun, hnum, ihy, hty, List.map_cons]
        simp

/-- C5: after feeding any stream of `n` records into a reservoir of
capacity `s`, `get_sample` returns exactly `min n s` rows and as many
labels, the reservoir buffers never exceed the capacity fixed at
construction, and when `n < s` the returned sample is exactly the filled
prefix: the `n` inserted rows and labels in insertion order. -/
theorem reservoir_get_sample_spec {α : Type} (s : ℕ) (x0 : α)
    (recs : List (StreamRecord α)) :
    (runReservoir (ReservoirSampler.init α s x0) recs).get_sample.1.length
      = min recs.length s ∧
    (runReservoir (ReservoirSampler.init α s x0) recs).get_sample.2.length
      = min recs.length s ∧
    (runReservoir (ReservoirSampler.init α s x0) recs).sampleX.length = s ∧
    (runReservoir (ReservoirSampler.init α s x0) recs).sampleY.length = s ∧
    (recs.length < s →
      (runReservoir (ReservoirSampler.init α s x0) recs).get_sample
        = (recs.map (fun q => q.row), recs.map (fun q => q.label))) := by
  have hsize := runReservoir_sample_size recs (ReservoirSampler.init α s x0)
  have hinv := runReservoir_inv recs (ReservoirSampler.init α s x0) 0
    ⟨by simp [ReservoirSampler.init], by simp [ReservoirSampler.init],
     by simp [ReservoirSampler.init], by simp [ReservoirSampler.init]⟩
  rw [Nat.zero_add] at hinv
  obtain ⟨hx, hy, hle, hor⟩ := hinv
  have hsz : (runReservoir (ReservoirSampler.init α s x0) recs).sample_size
      = s := by
    rw [hsize]
    rfl
  refine ⟨?_, ?_, by rw [hx, hsz], by rw [hy, hsz], ?_⟩
  · unfold ReservoirSampler.get_sample
    split_ifs with hc
    · rw [List.length_take, hx, hsz]
      have : (runReservoir (ReservoirSampler.init α s x0) recs).rowCounter
          = recs.length := by omega
      omega
    · rw [hx, hsz]
      rw [hsz] at hc
      omega
  · unfold ReservoirSampler.get_sample
    split_ifs with hc
    · rw [List.length_take, hy, hsz]
      have : (runReservoir (ReservoirSampler.init α s x0) recs).rowCounter
          = recs.length := by omega
      omega
    · rw [hy, hsz]
      rw [hsz] at hc
      omega
  · intro hlt
    obtain ⟨hc, hxc, hyc⟩ := runReservoir_fill recs
      (ReservoirSampler.init α s x0) (by simp [ReservoirSampler.init])
      (by simp [ReservoirSampler.init])
      (show 0 + recs.length ≤ s by omega)
    have hcnt : (runReservoir (ReservoirSampler.init α s x0) recs).rowCounter
        = recs.length := by
      rw [hc]
      show 0 + recs.length = recs.length
      omega
    have hxc' : (runReservoir (ReservoirSampler.init α s x0)
          recs).sampleX.take (0 + recs.length)
        = (List.replicate s x0).take 0 ++ recs.map (fun q => q.row) := hxc
    have hyc' : (runReservoir (ReservoirSampler.init α s x0)
          recs).sampleY.take (0 + recs.length)
        = (List.replicate s (0 : ℚ)).take 0 ++ recs.map (fun q => q.label) :=
      hyc
    simp only [Nat.zero_add, List.take_zero, List.nil_append] at hxc' hyc'
    unfold ReservoirSampler.get_sample
    rw [if_pos (by rw [hcnt, hsz]; exact hlt), hcnt]
    exact Prod.ext hxc' hyc'

/-- Witness for C5: one record into a capacity-2 reservoir; the sample is
the filled prefix of length `min 1 2 = 1`. -/
theorem reservoir_get_sample_spec_witness :
    (runReservoir (ReservoirSampler.init ℚ 2 0)
      [⟨5, 1, 1, 0, 0⟩]).get_sample = ([5], [1]) ∧
    (runReservoir (ReservoirSampler.init ℚ 2 0)
      [⟨5, 1, 1, 0, 0⟩]).get_sample.1.length = min 1 2 := by
  constructor
  · have h := (reservoir_get_sample_spec 2 (0 : ℚ)
      [⟨5, 1, 1, 0, 0⟩]).2.2.2.2 (by decide)
    simpa using h
  · have h := (reservoir_get_sample_spec 2 (0 : ℚ) [⟨5, 1, 1, 0, 0⟩]).1
    simpa using h

theorem ridgeRun_flags_ATA {d : ℕ}
    (solve : Matrix (Fin d) (Fin d) ℚ → (Fin d → ℚ) → (Fin d → ℚ))
    (augmentation_constant : Option ℚ) (us : ℕ → ℚ) (slots : ℕ → ℕ) :
    ∀ (recs : List ((Fin d → ℚ) × ℚ)) (i : ℕ) (st : RidgeState d),
      ∃ nf : List Bool,
        (ridgeRun solve augmentation_constant us slots recs i st).flags
          = st.flags ++ nf ∧
        nf.length = recs.length ∧
        (ridgeRun solve augmentation_constant us slots recs i st).ATA
          = st.ATA + (List.zipWith
              (fun (xy : (Fin d → ℚ) × ℚ) f =>
                if f then Matrix.vecMulVec xy.1 xy.1
                else (0 : Matrix (Fin d) (Fin d) ℚ))
              recs nf).sum
  | [], i, st => ⟨[], by simp [ridgeRun]⟩
  | (x, yl) :: rest, i, st => by
      obtain ⟨nf, hflags, hlen, hATA⟩ :=
        ridgeRun_flags_ATA solve augmentation_constant us slots rest (i + 1)
          (ridgeStep solve augmentation_constant (us i) (slots i) st x yl)
      have hrun : ridgeRun solve augmentation_constant us slots
            ((x, yl) :: rest) i st
          = ridgeRun solve augmentation_constant us slots rest (i + 1)
              (ridgeStep solve augmentation_constant (us i) (slots i)
                st x yl) := rfl
      set b := (st.sampler.insert_record x yl
        (ridgeWeight solve augmentation_constant st x) (us i)
        (slots i)).was_last_record_sampled with hb
      have hstepf : (ridgeStep solve augmentation_constant (us i) (slots i)
          st x yl).flags = st.flags ++ [b] := rfl
      have hstepA : (ridgeStep solve augmentation_constant (us i) (slots i)
          st x yl).ATA
          = if b then st.ATA + Matrix.vecMulVec x x else st.ATA := rfl
      refine ⟨b :: nf, ?_, by simpa using hlen, ?_⟩
      · rw [hrun, hflags, hstepf]
        simp
      · rw [hrun, hATA, hstepA, List.zipWith_cons_cons, List.sum_cons]
        cases hbv : b <;> simp [add_assoc]

/-- C8: in `online_ridge_leverage_score_sampling` the ridge Gram matrix is
augmented with the outer product of a row exactly when the reservoir
reports that row's insertion as sampled (the trace of
`was_last_record_sampled` values is the `flags` component), it is left
unchanged for every rejected row, and the returned weight vector is the
all-ones vector of the same length as the returned label sample. -/
theorem online_ridge_spec (d : ℕ) (X : List (Fin d → ℚ)) (y : List ℚ)
    (sample_size : ℕ) (augmentation_constant : Option ℚ)
    (lambda_ridge : ℚ)
    (solve : Matrix (Fin d) (Fin d) ℚ → (Fin d → ℚ) → (Fin d → ℚ))
    (us : ℕ → ℚ) (slots : ℕ → ℕ) :
    (online_ridge_leverage_score_sampling d X y sample_size
        augmentation_constant lambda_ridge solve us slots).1.2.2
      = List.replicate
          (online_ridge_leverage_score_sampling d X y sample_size
            augmentation_constant lambda_ridge solve us slots).1.2.1.length
          1 ∧
    (online_ridge_leverage_score_sampling d X y sample_size
        augmentation_constant lambda_ridge solve us slots).2.flags.length
      = (X.zip y).length ∧
    (online_ridge_leverage_score_sampling d X y sample_size
        augmentation_constant lambda_ridge solve us slots).2.ATA
      = lambda_ridge • (1 : Matrix (Fin d) (Fin d) ℚ) +
        (List.zipWith
          (fun (xy : (Fin d → ℚ) × ℚ) f =>
            if f then Matrix.vecMulVec xy.1 xy.1
            else (0 : Matrix (Fin d) (Fin d) ℚ))
          (X.zip y)
          (online_ridge_leverage_score_sampling d X y sample_size
            augmentation_constant lambda_ridge solve us slots).2.flags).sum
      := by
  obtain ⟨nf, hflags, hlen, hATA⟩ := ridgeRun_flags_ATA solve
    augmentation_constant us slots (X.zip y) 0
    ⟨lambda_ridge • (1 : Matrix (Fin d) (Fin d) ℚ),
     ReservoirSampler.init (Fin d → ℚ) sample_size (fun _ => 0), []⟩
  have hflags' : (online_ridge_leverage_score_sampling d X y sample_size
      augmentation_constant lambda_ridge solve us slots).2.flags = nf := by
    simpa [online_ridge_leverage_score_sampling] using hflags
  refine ⟨rfl, ?_, ?_⟩
  · rw [hflags', hlen]
  · rw [hflags']
    simpa [online_ridge_leverage_score_sampling] using hATA

theorem vecMulVec_mulVec_eq {d : ℕ} (x s : Fin d → ℚ) :
    (Matrix.vecMulVec x x).mulVec s = fun i => x i * (x ⬝ᵥ s) := by
  funext i
  simp [Matrix.mulVec, Matrix.vecMulVec, dotProduct, Finset.mul_sum,
    mul_assoc]

theorem sum_outer_mulVec_dot {d : ℕ} (xs : ℕ → Fin d → ℚ) (k : ℕ)
    (s : Fin d → ℚ) :
    ((∑ j ∈ Finset.range k,
        Matrix.vecMulVec (xs j) (xs j)).mulVec s) ⬝ᵥ s
      = ∑ j ∈ Finset.range k, (xs j ⬝ᵥ s) ^ 2 := by
  induction k with
  | zero => simp
  | succ k ih =>
      rw [Finset.sum_range_succ, Finset.sum_range_succ, Matrix.add_mulVec,
        Matrix.add_dotProduct, ih, vecMulVec_mulVec_eq]
      have : (fun i => xs k i * (xs k ⬝ᵥ s)) ⬝ᵥ s = (xs k ⬝ᵥ s) ^ 2 := by
        calc (fun i => xs k i * (xs k ⬝ᵥ s)) ⬝ᵥ s
            = ∑ i, xs k i * (xs k ⬝ᵥ s) * s i := rfl
          _ = ∑ i, xs k i * s i * (xs k ⬝ᵥ s) :=
              Finset.sum_congr rfl (fun i _ => by ring)
          _ = (∑ i, xs k i * s i) * (xs k ⬝ᵥ s) :=
              (Finset.sum_mul _ _ _).symm
          _ = (xs k ⬝ᵥ s) ^ 2 := by rw [sq]; rfl
      rw [this]

/-- If `z` solves the linear system `(Σ_{j ≤ i} xⱼ xⱼᵀ) z = xᵢ` — the
exact-arithmetic contract of both `np.linalg.solve` and (since `xᵢ` lies
in the column space of the Gram matrix) `np.linalg.lstsq` on this system —
then the raw online leverage score `xᵢ ⬝ z` is nonnegative, being a sum of
squares. -/
theorem dot_solution_nonneg {d : ℕ} (rows : ℕ → Fin d → ℚ) (i : ℕ)
    (z : Fin d → ℚ) (h : (ATA_seq d rows i).mulVec z = rows i) :
    0 ≤ rows i ⬝ᵥ z := by
  have hd : rows i ⬝ᵥ z = ((ATA_seq d rows i).mulVec z) ⬝ᵥ z := by rw [h]
  rw [hd, ATA_seq, sum_outer_mulVec_dot]
  exact Finset.sum_nonneg fun j _ => sq_nonneg _

/-- C3: every score returned by `compute_leverage_scores_online` lies in
`[0, 1]`, for `method = "pinv"` and for `method = "solve"` alike.  For the
pinv variant the raw quadratic form is clamped into `[0, 1]` before being
emitted; the solve variant clamps only from above at 1, and its lower
bound holds because in exact arithmetic the raw quadratic form of a
solution of the Gram system is a sum of squares (the hypotheses are the
exact-arithmetic contracts of the linear solvers). -/
theorem online_scores_in_unit_interval (d n : ℕ) (rows : ℕ → Fin d → ℚ)
    (O : OnlineOracles d)
    (hsolve : ∀ i z, O.solveRes i = some z →
      (ATA_seq d rows i).mulVec z = rows i)
    (hlstsq : ∀ i, (ATA_seq d rows i).mulVec (O.lstsqRes i) = rows i) :
    (∀ l, compute_leverage_scores_online d n rows O "pinv" = .ok l →
      ∀ v ∈ l, 0 ≤ v ∧ v ≤ 1) ∧
    (∀ l, compute_leverage_scores_online d n rows O "solve" = .ok l →
      ∀ v ∈ l, 0 ≤ v ∧ v ≤ 1) := by
  constructor
  · intro l hl v hv
    have hl' : l = _compute_leverage_scores_online_pinv d n rows O := by
      simpa [compute_leverage_scores_online] using hl.symm
    subst hl'
    unfold _compute_leverage_scores_online_pinv at hv
    obtain ⟨i, _, rfl⟩ := List.mem_map.mp hv
    exact ⟨le_max_right _ _, max_le (min_le_right _ 1) one_pos.le⟩
  · intro l hl v hv
    have hl' : l = _compute_leverage_scores_online_solve d n rows O := by
      simpa [compute_leverage_scores_online] using hl.symm
    subst hl'
    unfold _compute_leverage_scores_online_solve at hv
    obtain ⟨i, _, rfl⟩ := List.mem_map.mp hv
    refine ⟨le_min ?_ one_pos.le, min_le_right _ 1⟩
    unfold solveScoreRaw
    cases hsr : O.solveRes i with
    | none =>
        dsimp only
        exact dot_solution_nonneg rows i _ (hlstsq i)
    | some z =>
        dsimp only
        split_ifs with hneg
        · exact dot_solution_nonneg rows i _ (hlstsq i)
        · exact dot_solution_nonneg rows i z (hsolve i z hsr)

/-- Witness for C3: constant-zero rows with the exact solver oracles of
`zeroOracles`; both methods return the singleton score list `[0]` and the
bounds hold at that concrete score. -/
theorem online_scores_in_unit_interval_witness :
    compute_leverage_scores_online 1 1 (fun _ _ => 0) zeroOracles "solve"
      = .ok [0] ∧
    ((0 : ℚ) ≤ 0 ∧ (0 : ℚ) ≤ 1) := by
  have hz : ∀ i, ATA_seq 1 (fun _ _ => (0 : ℚ)) i = 0 := by
    intro i
    unfold ATA_seq
    apply Finset.sum_eq_zero
    intro j _
    ext a b
    simp [Matrix.vecMulVec_apply]
  have hsolve : ∀ i z, zeroOracles.solveRes i = some z →
      (ATA_seq 1 (fun _ _ => (0 : ℚ)) i).mulVec z = (fun _ _ => (0 : ℚ)) i := by
    intro i z hsr
    rw [hz i, Matrix.zero_mulVec]
    rfl
  have hlstsq : ∀ i,
      (ATA_seq 1 (fun _ _ => (0 : ℚ)) i).mulVec (zeroOracles.lstsqRes i)
        = (fun _ _ => (0 : ℚ)) i := by
    intro i
    rw [hz i, Matrix.zero_mulVec]
    rfl
  have h := online_scores_in_unit_interval 1 1 (fun _ _ => 0) zeroOracles
    hsolve hlstsq
  have he : compute_leverage_scores_online 1 1 (fun _ _ => 0) zeroOracles
      "solve" = .ok [0] := by
    simp [compute_leverage_scores_online,
      _compute_leverage_scores_online_solve, solveScoreRaw, zeroOracles,
      List.range_succ, dotProduct]
  exact ⟨he, h.2 [0] he 0 (by simp)⟩

/-- C1: whenever `leverage_score_sampling` returns a triple
`(Xr, yr, ws)`, the weight attached to each drawn row `i` equals
`1 / (p i * sample_size)` with `p i = scores i / (Σ scores)` computed from
the scores in effect after the optional augmentation and round-up
transformations, and every returned weight is strictly positive (and, the
arithmetic being exact rationals, finite). -/
theorem leverage_weights_spec (X : List (List ℚ)) (y : List ℚ)
    (sample_size : ℤ) (augmented round_up : Bool)
    (leverage_scores : List ℚ) (draw : List ℕ) (Xr : List (List ℚ))
    (yr : List ℚ) (ws : List ℚ) (scores : List ℚ)
    (hok : leverage_score_sampling X y sample_size augmented round_up
      leverage_scores draw = .ok (Xr, yr, ws))
    (hsc : effScores X.length leverage_scores augmented round_up
      = .ok scores) :
    ws = draw.map (fun i =>
      1 / ((scores.getD i 0 / scores.sum) * (sample_size : ℚ))) ∧
    ∀ v ∈ ws, 0 < v := by
  unfold leverage_score_sampling at hok
  cases hck : _check_sample X.length y.length sample_size with
  | error e =>
      rw [hck] at hok
      exact absurd hok (by simp)
  | ok u =>
      cases u
      rw [hck, hsc] at hok
      dsimp only at hok
      by_cases hbad : choiceBad X.length
          (scores.map (fun v => v / scores.sum)) sample_size.toNat = true
      · rw [if_pos hbad] at hok
        exact absurd hok (by simp)
      · rw [if_neg hbad] at hok
        by_cases hdr : weightedDrawOk X.length
            (scores.map (fun v => v / scores.sum)) sample_size.toNat draw
            = true
        · rw [if_pos hdr] at hok
          have hok' := hok
          simp only [Except.ok.injEq, Prod.mk.injEq] at hok'
          obtain ⟨-, -, hws⟩ := hok'
          have hspos : 0 < sample_size :=
            ((check_sample_ok_iff _ _ _).mp hck).2.1
          have hszq : (0 : ℚ) < (sample_size : ℚ) := by exact_mod_cast hspos
          have hplen : (scores.map (fun v => v / scores.sum)).length
              = X.length := by
            have hb := hbad
            simp only [choiceBad, Bool.or_eq_true, decide_eq_true_eq]
              at hb
            push_neg at hb
            exact hb.1.1.1
          simp only [weightedDrawOk, Bool.and_eq_true, decide_eq_true_eq,
            List.all_eq_true] at hdr
          obtain ⟨-, hall⟩ := hdr
          have hmemfacts : ∀ i ∈ draw, i < X.length ∧
              0 < (scores.map (fun v => v / scores.sum)).getD i 0 := by
            intro i hi
            have := hall i hi
            simpa using this
          constructor
          · rw [← hws]
            apply List.map_congr_left
            intro i hi
            obtain ⟨hin, hpi⟩ := hmemfacts i hi
            have hip : i < (scores.map (fun v => v / scores.sum)).length := by
              rw [hplen]
              exact hin
            have his : i < scores.length := by simpa using hip
            rw [getD_map_lt (fun v => 1 / (v * (sample_size : ℚ)))
              (scores.map (fun v => v / scores.sum)) i 0 0 hip]
            rw [getD_map_lt (fun v => v / scores.sum) scores i 0 0 his]
          · intro v hv
            rw [← hws] at hv
            obtain ⟨i, hi, rfl⟩ := List.mem_map.mp hv
            obtain ⟨hin, hpi⟩ := hmemfacts i hi
            have hip : i < (scores.map (fun v => v / scores.sum)).length := by
              rw [hplen]
              exact hin
            rw [getD_map_lt (fun v => 1 / (v * (sample_size : ℚ)))
              (scores.map (fun v => v / scores.sum)) i 0 0 hip]
            exact one_div_pos.mpr (mul_pos hpi hszq)
        · rw [if_neg hdr] at hok
          exact absurd hok (by simp)

/-- Witness for C1 on a concrete run: two unit rows, unit scores, sample
size 1, drawn index 0; the returned weight list is `[2]` and matches the
inverse-probability formula. -/
theorem leverage_weights_spec_witness :
    ([(2 : ℚ)] = ([0] : List ℕ).map (fun i =>
      1 / ((([1, 1] : List ℚ).getD i 0 / ([1, 1] : List ℚ).sum)
        * ((1 : ℤ) : ℚ))) ∧
    (0 : ℚ) < 2) := by
  have h := leverage_weights_spec [[1], [1]] [1, -1] 1 false false [1, 1]
    [0] [[1]] [1] [2] [1, 1]
    (by norm_num [leverage_score_sampling, _check_sample, effScores,
      augScores, choiceBad, weightedDrawOk, List.getD])
    (by rfl)
  exact ⟨h.1, h.2 2 (by simp)⟩

/-- C4 counterexample to the claim as stated: with matching shapes and a
valid sample size (`n = 1`, `sample_size = 1`), `leverage_score_sampling`
with `round_up = True` and a negative precomputed score still raises a
`ValueError` — so shape or size violations are not the only sources of
`ValueError`. -/
theorem sampling_validation_counterexample :
    leverage_score_sampling [[1]] [1] 1 false true [-1] [0]
      = .error "All elements of x must be greater than zero!" ∧
    ¬ badSample ([[1]] : List (List ℚ)).length ([1] : List ℚ).length 1 := by
  constructor
  · rfl
  · show ¬ badSample 1 1 1
    unfold badSample
    omega

/-- C4 amended: `uniform_sampling` raises a `ValueError` exactly when the
row counts of `X` and `y` differ, or the sample size is nonpositive, or it
exceeds the number of rows; `leverage_score_sampling` raises on those
conditions as well, and its validation runs before any score is consumed
or any drawing takes place: under a violation the result is the same
error for every score vector and every draw, and no partial result is
produced.  (`leverage_score_sampling` may additionally raise later for
invalid scores, see the counterexample.) -/
theorem sampling_validation_spec (X : List (List ℚ)) (y : List ℚ)
    (sample_size : ℤ) (augmented round_up : Bool)
    (scores scores' : List ℚ) (draw draw' : List ℕ) :
    (uniformDrawOk X.length sample_size.toNat draw = true →
      (isError (uniform_sampling X y sample_size draw) = true
        ↔ badSample X.length y.length sample_size)) ∧
    (badSample X.length y.length sample_size →
      leverage_score_sampling X y sample_size augmented round_up scores
          draw
        = leverage_score_sampling X y sample_size augmented round_up
            scores' draw' ∧
      isError (leverage_score_sampling X y sample_size augmented round_up
        scores draw) = true) := by
  constructor
  · intro hdraw
    constructor
    · intro herr
      by_contra hnb
      unfold badSample at hnb
      push_neg at hnb
      have hok : _check_sample X.length y.length sample_size = .ok () := by
        rw [check_sample_ok_iff]
        exact ⟨hnb.1, hnb.2.1, hnb.2.2⟩
      have hval : uniform_sampling X y sample_size draw
          = .ok (draw.map (fun i => X.getD i []),
                 draw.map (fun i => y.getD i 0)) := by
        unfold uniform_sampling
        rw [hok]
        dsimp only
        rw [if_pos hdraw]
      rw [hval] at herr
      simp [isError] at herr
    · intro hb
      obtain ⟨e, he⟩ := check_sample_error_of_bad _ _ _ hb
      unfold uniform_sampling
      rw [he]
      rfl
  · intro hb
    obtain ⟨e, he⟩ := check_sample_error_of_bad _ _ _ hb
    have h1 : leverage_score_sampling X y sample_size augmented round_up
        scores draw = .error e := by
      unfold leverage_score_sampling
      rw [he]
    have h2 : leverage_score_sampling X y sample_size augmented round_up
        scores' draw' = .error e := by
      unfold leverage_score_sampling
      rw [he]
    rw [h1, h2]
    exact ⟨rfl, rfl⟩

/-- Witness for C4 (amended): a valid call is not an error, and a call
with an empty data matrix but one label is rejected identically for two
different score vectors and draws. -/
theorem sampling_validation_spec_witness :
    (isError (uniform_sampling [[1]] [1] 1 [0]) = true
      ↔ badSample ([[1]] : List (List ℚ)).length ([1] : List ℚ).length 1) ∧
    (leverage_score_sampling [] [1] 1 false false [1] [0]
        = leverage_score_sampling [] [1] 1 false false [2] [1] ∧
      isError (leverage_score_sampling [] [1] 1 false false [1] [0])
        = true) := by
  constructor
  · exact (sampling_validation_spec [[1]] [1] 1 false false [1] [1] [0]
      [0]).1 (by decide)
  · exact (sampling_validation_spec [] [1] 1 false false [1] [2] [0]
      [1]).2 (by show badSample 0 1 1; unfold badSample; omega)

/-- C6 counterexample to the claim as stated: with all scores negative
(sum `-3 < 0`) and `round_up = False`, the normalized probabilities are
all valid (`[1/3, 2/3]`), so `leverage_score_sampling` silently succeeds
even though negative scores reached the normalization step. -/
theorem negative_score_rejection_counterexample :
    leverage_score_sampling [[1], [2]] [1, -1] 1 false false [-1, -2] [1]
      = .ok ([[2]], [-1], [3 / 2]) ∧
    (-1 : ℚ) ∈ ([-1, -2] : List ℚ) ∧ (-1 : ℚ) < 0 := by
  refine ⟨by norm_num [leverage_score_sampling, _check_sample, effScores,
    augScores, choiceBad, weightedDrawOk, List.getD], by decide,
    by norm_num⟩

/-- C6 amended: a negative score (after the optional augmentation) makes
`leverage_score_sampling` raise whenever `round_up` is set (the
`_round_up` validation) or the score sum is positive (the normalized
probability of that score is negative and the drawing step rejects the
probability vector); when the score sum is nonpositive the negative
score can be normalized silently, see the counterexample. -/
theorem negative_score_rejection (X : List (List ℚ)) (y : List ℚ)
    (sample_size : ℤ) (augmented round_up : Bool)
    (leverage_scores : List ℚ) (draw : List ℕ) (v : ℚ)
    (hv : v ∈ augScores X.length leverage_scores augmented) (hneg : v < 0)
    (hcase : round_up = true ∨
      0 < (augScores X.length leverage_scores augmented).sum) :
    isError (leverage_score_sampling X y sample_size augmented round_up
      leverage_scores draw) = true := by
  unfold leverage_score_sampling
  cases hck : _check_sample X.length y.length sample_size with
  | error e => rfl
  | ok u =>
      cases u
      by_cases hr : round_up = true
      · subst hr
        have heff : effScores X.length leverage_scores augmented true
            = .error "All elements of x must be greater than zero!" := by
          unfold effScores _round_up
          rw [if_pos rfl,
            if_pos (List.any_eq_true.mpr ⟨v, hv, by simpa using hneg⟩)]
        rw [heff]
        rfl
      · have hr' : round_up = false := by
          cases round_up
          · rfl
          · exact absurd rfl hr
        subst hr'
        rcases hcase with hc | hsum
        · exact absurd hc (by simp)
        · have heff : effScores X.length leverage_scores augmented false
              = .ok (augScores X.length leverage_scores augmented) := by
            unfold effScores
            simp
          rw [heff]
          dsimp only
          have hchoice : choiceBad X.length
              ((augScores X.length leverage_scores augmented).map
                (fun w => w /
                  (augScores X.length leverage_scores augmented).sum))
              sample_size.toNat = true := by
            unfold choiceBad
            have hmem : v /
                (augScores X.length leverage_scores augmented).sum ∈
                (augScores X.length leverage_scores augmented).map
                  (fun w => w /
                    (augScores X.length leverage_scores augmented).sum) :=
              List.mem_map_of_mem _ hv
            have hany : ((augScores X.length leverage_scores
                augmented).map (fun w => w /
                  (augScores X.length leverage_scores augmented).sum)).any
                (fun w => decide (w < 0)) = true :=
              List.any_eq_true.mpr ⟨_, hmem,
                by simpa using div_neg_of_neg_of_pos hneg hsum⟩
            simp [hany]
          rw [if_pos hchoice]
          rfl

/-- Witness for C6 (amended): a negative precomputed score with
`round_up = True` is rejected (matching shapes, valid size). -/
theorem negative_score_rejection_witness :
    isError (leverage_score_sampling [[1]] [1] 1 false true [-1] [0])
      = true :=
  negative_score_rejection [[1]] [1] 1 false true [-1] [0] (-1)
    (by simp [augScores]) (by norm_num) (Or.inl rfl)
